import Mathlib

/-!
Verification of the metric scripts of the Microservices-Quality-Score-Model
repository ("Metrics Calculation/": cyclic_independence.py, code_modularity.py,
service_coupling_factor.py, smad.py, dccmd.py).

The per-file computations are embedded shallowly:

* Python dicts parsed from JSON become association lists; a node descriptor is
  reduced to its "id" string (the scripts read nothing else from it).
* Python floats are modelled exactly over ℚ (and ℝ where `math.sqrt` occurs);
  IEEE rounding is not modelled.
* `statistics.median` is modelled by `pymedian`; the sort used by the source is
  modelled by insertion sort (any correct sort yields the same median).
* The scripts sort partition keys (`sorted(...)`); every quantity they compute
  is invariant under that ordering, so the embedding keeps insertion order.
* Error behaviour (the `try/except` blocks and the exceptions Python raises on
  malformed documents) is modelled in a second, "raw" layer near the end of the
  file, with `Except PyError` results.
-/

namespace MQSM

/-- Weight field of a structural edge descriptor, as seen by
`float(e.get("weight", 1.0))` in code_modularity.py: the key may be absent,
hold a number, hold a string that `float` parses, or hold a value `float`
cannot convert. -/
inductive WField where
  | absent
  | num (q : ℚ)
  | strNum (q : ℚ)
  | bad
deriving DecidableEq

/-- A structural edge descriptor: `e.get("source")` / `e.get("target")` give
`none` when the key is absent (or holds a non-string, which no node id ever
equals), plus the weight field. -/
structure Link where
  source : Option String
  target : Option String
  weight : WField
deriving DecidableEq

/-- A business-layer edge descriptor: story label (`none` models an absent or
non-string label, which the story filter rejects) and target node id. -/
structure BLink where
  source : Option String
  target : Option String
deriving DecidableEq

/-- The `decomposition` object of the structural layer: partition key to the
ids of the node descriptors listed under it. -/
abbrev Decomp := List (String × List String)

/-- Keys of the decomposition object; every key is a partition. -/
def partKeys (decomp : Decomp) : List String := decomp.map Prod.fst

/-- All node ids of the document, in document order. -/
def allNodeIds (decomp : Decomp) : List String :=
  decomp.foldr (fun pr acc => pr.2 ++ acc) []

/-- The (node id, partition) pairs in the order the dict comprehension
`{n["id"]: svc for svc, nodes in decomp.items() for n in nodes}` visits them. -/
def nodePairs : Decomp → List (String × String)
  | [] => []
  | pr :: rest => pr.2.map (fun n => (n, pr.1)) ++ nodePairs rest

/-- The node → partition map built by that comprehension: a later occurrence of
the same node id overwrites an earlier one, so lookup takes the last pair. -/
def node2part (decomp : Decomp) (nid : String) : Option String :=
  ((nodePairs decomp).reverse.find? (fun q => q.1 == nid)).map (fun q => q.2)

/-- `node2part.get(x)` where `x` itself came from `e.get(...)`: Python's
`dict.get(None)` is just a miss, so the lookup is an `Option.bind`. -/
def getOpt (decomp : Decomp) (o : Option String) : Option String :=
  o.bind (node2part decomp)

/-- Python `statistics.median`: sort, take the middle element (odd length) or
the mean of the two middle elements (even length).  The scripts only call it
on non-empty lists; the default `0` is never read. -/
def pymedian (xs : List ℚ) : ℚ :=
  let s := xs.insertionSort (· ≤ ·)
  let n := xs.length
  if n % 2 = 1 then s.getD (n / 2) 0
  else (s.getD (n / 2 - 1) 0 + s.getD (n / 2) 0) / 2

/-- Median absolute deviation as the scripts compute it:
`median(abs(x - median(xs)) for x in xs)`. -/
def madOf (xs : List ℚ) : ℚ :=
  pymedian (xs.map (fun x => |x - pymedian xs|))

/-- Well-formedness of a parsed weight field: the expected shape has `weight`
absent or a non-negative number. -/
def weightOk : WField → Bool
  | .absent => true
  | .num q => decide (0 ≤ q)
  | .strNum _ => false
  | .bad => false

/-- A well-formed structural layer: distinct partition keys (JSON object),
non-empty partition identifiers (the scripts test partition values for Python
truthiness, which conflates the empty string with a missing partition), each
node id recorded under exactly one partition, and weights of the expected
shape. -/
def WellFormedSL (decomp : Decomp) (links : List Link) : Prop :=
  (partKeys decomp).Nodup ∧
  (∀ p ∈ partKeys decomp, p ≠ "") ∧
  (allNodeIds decomp).Nodup ∧
  (∀ e ∈ links, weightOk e.weight = true)

instance (decomp : Decomp) (links : List Link) :
    Decidable (WellFormedSL decomp links) := by
  unfold WellFormedSL; infer_instance

/-! ## Cyclic Independence (cyclic_independence.py) -/

/-- The unordered pairs `itertools.combinations(l, 2)` enumerates. -/
def pairsOf : List α → List (α × α)
  | [] => []
  | x :: xs => (xs.map (fun y => (x, y))) ++ pairsOf xs

/-- Edge classification of the `cid_for_file` loop: the ordered partition pair
an edge contributes to `dep_out`, or `none` when an endpoint is unknown or
both endpoints share a partition. -/
def classifyCid (decomp : Decomp) (e : Link) : Option (String × String) :=
  match getOpt decomp e.source, getOpt decomp e.target with
  | some p, some q => if p = q then none else some (p, q)
  | _, _ => none

/-- Membership of `q` in `dep_out[p]`: the dict of sets accumulated by the
loop holds `q` under `p` exactly when some link classifies to `(p, q)`. -/
def depOut (decomp : Decomp) (links : List Link) (p q : String) : Bool :=
  links.any (fun e => classifyCid decomp e == some (p, q))

/-- Result record of `cid_for_file`. -/
structure CidRes where
  partitions : ℕ
  cyclicPairs : ℕ
  totalPairs : ℕ
  CiD : ℚ
deriving DecidableEq

/-- The count `sum(1 for p, q in combinations(parts, 2) if q in dep_out[p] and
p in dep_out[q])`.  The source enumerates the sorted keys; the count of pairs
satisfying this symmetric predicate does not depend on the ordering. -/
def cyclicCount (decomp : Decomp) (links : List Link) : ℕ :=
  ((pairsOf (partKeys decomp)).filter
    (fun pq => depOut decomp links pq.1 pq.2 && depOut decomp links pq.2 pq.1)).length

/-- `cid_for_file` on a parsed structural layer. -/
def cidPure (decomp : Decomp) (links : List Link) : CidRes :=
  if (partKeys decomp).length ≤ 1 then
    ⟨(partKeys decomp).length, 0,
     (partKeys decomp).length * ((partKeys decomp).length - 1) / 2, 1⟩
  else
    ⟨(partKeys decomp).length, cyclicCount decomp links,
     (partKeys decomp).length * ((partKeys decomp).length - 1) / 2,
     if 0 < (partKeys decomp).length * ((partKeys decomp).length - 1) / 2 then
       1 - (cyclicCount decomp links : ℚ) /
         (((partKeys decomp).length * ((partKeys decomp).length - 1) / 2 : ℕ) : ℚ)
     else 1⟩

/-- The specification's notion of a cross-partition dependency: at least one
edge goes from partition `p` to a different partition `q`. -/
def CrossDep (decomp : Decomp) (links : List Link) (p q : String) : Prop :=
  p ≠ q ∧ ∃ e ∈ links,
    getOpt decomp e.source = some p ∧ getOpt decomp e.target = some q

instance (decomp : Decomp) (links : List Link) (p q : String) :
    Decidable (CrossDep decomp links p q) := by
  unfold CrossDep; infer_instance

theorem classifyCid_eq_some (decomp : Decomp) (e : Link) (p q : String) :
    classifyCid decomp e = some (p, q) ↔
      getOpt decomp e.source = some p ∧ getOpt decomp e.target = some q ∧ p ≠ q := by
  unfold classifyCid
  rcases hs : getOpt decomp e.source with _ | a
  · simp
  rcases ht : getOpt decomp e.target with _ | b
  · simp
  dsimp only
  by_cases hab : a = b
  · subst hab
    rw [if_pos rfl]
    constructor
    · intro h; exact Option.noConfusion h
    · rintro ⟨hp, hq, hpq⟩
      injection hp with hp; injection hq with hq
      exact absurd (hp.symm.trans hq) hpq
  · rw [if_neg hab]
    constructor
    · intro h
      injection h with h
      rw [Prod.mk.injEq] at h
      obtain ⟨rfl, rfl⟩ := h
      exact ⟨rfl, rfl, hab⟩
    · rintro ⟨hp, hq, _⟩
      injection hp with hp; injection hq with hq
      rw [hp, hq]

theorem depOut_iff (decomp : Decomp) (links : List Link) (p q : String) :
    depOut decomp links p q = true ↔ CrossDep decomp links p q := by
  unfold depOut CrossDep
  rw [List.any_eq_true]
  constructor
  · rintro ⟨e, he, hc⟩
    rw [beq_iff_eq, classifyCid_eq_some] at hc
    exact ⟨hc.2.2, e, he, hc.1, hc.2.1⟩
  · rintro ⟨hpq, e, he, h1, h2⟩
    exact ⟨e, he, by rw [beq_iff_eq, classifyCid_eq_some]; exact ⟨h1, h2, hpq⟩⟩

theorem pairsOf_eq_nil_of_short {l : List α} (h : l.length ≤ 1) : pairsOf l = [] := by
  match l, h with
  | [], _ => rfl
  | [x], _ => rfl

/-- Scenario 1 document: three partitions `A`, `B`, `C` with one node each and
cross edges `a → b` and `b → a` only. -/
def cidScDecomp : Decomp := [("A", ["a"]), ("B", ["b"]), ("C", ["c"])]

/-- Scenario 1 links. -/
def cidScLinks : List Link :=
  [⟨some "a", some "b", .absent⟩, ⟨some "b", some "a", .absent⟩]

theorem cyclicCount_eq_countP (decomp : Decomp) (links : List Link) :
    cyclicCount decomp links = (pairsOf (partKeys decomp)).countP (fun pq =>
      decide (CrossDep decomp links pq.1 pq.2 ∧ CrossDep decomp links pq.2 pq.1)) := by
  unfold cyclicCount
  rw [List.countP_eq_length_filter]
  congr 1
  apply List.filter_congr
  intro pq _
  rw [Bool.eq_iff_iff]
  simp only [Bool.and_eq_true, depOut_iff, decide_eq_true_eq]

/-- Claim C2: for every well-formed document, `CiD = 1 − cyclic_pairs /
(N·(N−1)/2)` where an unordered partition pair counts as cyclic exactly when
some cross-partition edge goes each way between its members (weights and
multiplicity ignored); for `N ≤ 1` the result is exactly `1`; and on the
scenario document (cross edges `A→B` and `B→A` among three partitions) the
result is `1 − 1/3` with one cyclic pair out of three. -/
theorem cid_matches_spec :
    (∀ (decomp : Decomp) (links : List Link), WellFormedSL decomp links →
      (cidPure decomp links).CiD =
        1 - (((pairsOf (partKeys decomp)).countP (fun pq =>
                decide (CrossDep decomp links pq.1 pq.2 ∧
                        CrossDep decomp links pq.2 pq.1)) : ℚ) /
              (((partKeys decomp).length * ((partKeys decomp).length - 1) / 2 : ℕ) : ℚ)) ∧
      ((partKeys decomp).length ≤ 1 → (cidPure decomp links).CiD = 1)) ∧
    ((cidPure cidScDecomp cidScLinks).partitions = 3 ∧
     (cidPure cidScDecomp cidScLinks).cyclicPairs = 1 ∧
     (cidPure cidScDecomp cidScLinks).totalPairs = 3 ∧
     (cidPure cidScDecomp cidScLinks).CiD = 1 - 1 / 3) := by
  constructor
  · intro decomp links _
    constructor
    · by_cases hn : (partKeys decomp).length ≤ 1
      · have h0 : pairsOf (partKeys decomp) = [] := pairsOf_eq_nil_of_short hn
        have hcid : (cidPure decomp links).CiD = 1 := by
          unfold cidPure; rw [if_pos hn]
        rw [hcid, h0]
        simp
      · push_neg at hn
        have htot : 0 < (partKeys decomp).length * ((partKeys decomp).length - 1) / 2 := by
          apply Nat.div_pos _ (by norm_num)
          have h1 : 1 ≤ (partKeys decomp).length - 1 := by omega
          have h2 : 2 * 1 ≤ (partKeys decomp).length * ((partKeys decomp).length - 1) :=
            Nat.mul_le_mul hn h1
          omega
        have hcid : (cidPure decomp links).CiD =
            1 - (cyclicCount decomp links : ℚ) /
              (((partKeys decomp).length * ((partKeys decomp).length - 1) / 2 : ℕ) : ℚ) := by
          unfold cidPure
          rw [if_neg (by omega), if_pos htot]
        rw [hcid, cyclicCount_eq_countP]
    · intro hn
      unfold cidPure
      rw [if_pos hn]
  · have hc : cyclicCount cidScDecomp cidScLinks = 1 := by decide
    have hn : ¬ (partKeys cidScDecomp).length ≤ 1 := by decide
    have h1 : (cidPure cidScDecomp cidScLinks) =
        ⟨(partKeys cidScDecomp).length, cyclicCount cidScDecomp cidScLinks,
         (partKeys cidScDecomp).length * ((partKeys cidScDecomp).length - 1) / 2,
         if 0 < (partKeys cidScDecomp).length * ((partKeys cidScDecomp).length - 1) / 2 then
           1 - (cyclicCount cidScDecomp cidScLinks : ℚ) /
             (((partKeys cidScDecomp).length * ((partKeys cidScDecomp).length - 1) / 2 : ℕ) : ℚ)
         else 1⟩ := by
      unfold cidPure; rw [if_neg hn]
    rw [h1, hc]
    have hl : (partKeys cidScDecomp).length = 3 := by decide
    rw [hl]
    refine ⟨rfl, rfl, rfl, ?_⟩
    norm_num

/-- Witness for C2: the scenario document is well-formed, and the theorem
applied to it gives the `CiD` formula there. -/
theorem cid_matches_spec_witness :
    WellFormedSL cidScDecomp cidScLinks ∧
    (cidPure cidScDecomp cidScLinks).CiD =
      1 - (((pairsOf (partKeys cidScDecomp)).countP (fun pq =>
              decide (CrossDep cidScDecomp cidScLinks pq.1 pq.2 ∧
                      CrossDep cidScDecomp cidScLinks pq.2 pq.1)) : ℚ) /
           (((partKeys cidScDecomp).length * ((partKeys cidScDecomp).length - 1) / 2 : ℕ) : ℚ)) :=
  ⟨by decide, (cid_matches_spec.1 cidScDecomp cidScLinks (by decide)).1⟩

/-! ## Code Modularity (code_modularity.py) -/

/-- Python exception kinds raised by the scripts on malformed documents. -/
inductive PyError where
  | keyError
  | typeError
  | valueError
deriving DecidableEq

/-- Python `float(e.get("weight", 1.0))`: an absent key defaults to `1.0`,
numbers and numeric strings convert, anything else raises. -/
def pyFloat : WField → Except PyError ℚ
  | .absent => .ok 1
  | .num q => .ok q
  | .strNum q => .ok q
  | .bad => .error .valueError

/-- The weight value on the non-raising path; the `.bad` branch is unreachable
once the raw layer has checked `pyFloat`, its value is never used. -/
def wval (w : WField) : ℚ :=
  match pyFloat w with
  | .ok q => q
  | .error _ => 1

/-- How one loop iteration of `cmod_for_file` sees an edge: skipped, internal
to a partition, or a cross-partition edge. -/
inductive EdgeView where
  | drop
  | intern (p : String)
  | cross (p q : String)
deriving DecidableEq

/-- Edge classification of the `cmod_for_file` loop: `continue` on an absent
source/target key or an unknown endpoint, `internal[p] += 1` when both map to
the same partition, otherwise a cross-partition edge. -/
def cmodView (decomp : Decomp) (e : Link) : EdgeView :=
  match e.source, e.target with
  | some s, some t =>
    match node2part decomp s, node2part decomp t with
    | some p, some q => if p = q then .intern p else .cross p q
    | _, _ => .drop
  | _, _ => .drop

/-- The ordered cross-partition pair `cmod_for_file` derives from an edge
(`none`: the edge contributes no cross-partition pair). -/
def classifyCmod (decomp : Decomp) (e : Link) : Option (String × String) :=
  match cmodView decomp e with
  | .cross p q => some (p, q)
  | _ => none

/-- `internal[p]`: the count of edges internal to `p` (count, not weight). -/
def internalCnt (decomp : Decomp) (links : List Link) (p : String) : ℕ :=
  (links.filter (fun e => cmodView decomp e == .intern p)).length

/-- `outgoing[p]`: the weight sum of cross-partition edges leaving `p`. -/
def outgoingW (decomp : Decomp) (links : List Link) (p : String) : ℚ :=
  ((links.filter (fun e => (classifyCmod decomp e).map Prod.fst == some p)).map
    (fun e => wval e.weight)).sum

/-- `incoming[p]`: the weight sum of cross-partition edges entering `p`. -/
def incomingW (decomp : Decomp) (links : List Link) (p : String) : ℚ :=
  ((links.filter (fun e => (classifyCmod decomp e).map Prod.snd == some p)).map
    (fun e => wval e.weight)).sum

/-- `ext_w = outgoing.get(p, 0.0) + incoming.get(p, 0.0)`. -/
def extW (decomp : Decomp) (links : List Link) (p : String) : ℚ :=
  outgoingW decomp links p + incomingW decomp links p

/-- The per-partition cluster factor of `cmod_for_file` (`None` = edgeless
partition, ignored). -/
def cfOf (decomp : Decomp) (links : List Link) (p : String) : Option ℚ :=
  if extW decomp links p = 0 ∧ internalCnt decomp links p = 0 then none
  else if extW decomp links p = 0 then some 1
  else some ((2 * internalCnt decomp links p : ℚ) /
             (2 * internalCnt decomp links p + extW decomp links p))

/-- `cmod_for_file` on a parsed structural layer: the mean of the collected
cluster factors, `None` when none was collected. -/
def cmodPure (decomp : Decomp) (links : List Link) : Option ℚ :=
  if (partKeys decomp).filterMap (cfOf decomp links) = [] then none
  else some (((partKeys decomp).filterMap (cfOf decomp links)).sum /
             (((partKeys decomp).filterMap (cfOf decomp links)).length : ℚ))

/-- The claim's qualification criterion: the partition has at least one
internal or external (cross-partition) edge, regardless of weight. -/
def HasAnyEdge (decomp : Decomp) (links : List Link) (p : String) : Prop :=
  ∃ e ∈ links, cmodView decomp e = .intern p ∨
    (classifyCmod decomp e).map Prod.fst = some p ∨
    (classifyCmod decomp e).map Prod.snd = some p

instance (decomp : Decomp) (links : List Link) (p : String) :
    Decidable (HasAnyEdge decomp links p) := by
  unfold HasAnyEdge; infer_instance

/-- Two partitions joined by a single cross-partition edge of weight `0`. -/
def cmodZeroDecomp : Decomp := [("A", ["a"]), ("B", ["b"])]

/-- The single zero-weight cross edge of the zero-weight document. -/
def cmodZeroLinks : List Link := [⟨some "a", some "b", .num 0⟩]

/-- Counterexample to claim C3 as stated: in the well-formed zero-weight
document, partition `A` has an external edge (so under the claim's criterion
some partition qualifies and `CMod` should be available), yet the code yields
"not available" because it excludes every partition whose external weight sum
is zero and internal count is zero. -/
theorem cmod_zero_weight_excluded :
    WellFormedSL cmodZeroDecomp cmodZeroLinks ∧
    HasAnyEdge cmodZeroDecomp cmodZeroLinks "A" ∧
    cmodPure cmodZeroDecomp cmodZeroLinks = none := by
  refine ⟨by decide, by decide, ?_⟩
  have hfA1 : cmodZeroLinks.filter
      (fun e => (classifyCmod cmodZeroDecomp e).map Prod.fst == some "A") =
      [⟨some "a", some "b", .num 0⟩] := by decide
  have hfA2 : cmodZeroLinks.filter
      (fun e => (classifyCmod cmodZeroDecomp e).map Prod.snd == some "A") = [] := by decide
  have hfB1 : cmodZeroLinks.filter
      (fun e => (classifyCmod cmodZeroDecomp e).map Prod.fst == some "B") = [] := by decide
  have hfB2 : cmodZeroLinks.filter
      (fun e => (classifyCmod cmodZeroDecomp e).map Prod.snd == some "B") =
      [⟨some "a", some "b", .num 0⟩] := by decide
  have hextA : extW cmodZeroDecomp cmodZeroLinks "A" = 0 := by
    simp [extW, outgoingW, incomingW, hfA1, hfA2, wval, pyFloat]
  have hextB : extW cmodZeroDecomp cmodZeroLinks "B" = 0 := by
    simp [extW, outgoingW, incomingW, hfB1, hfB2, wval, pyFloat]
  have hintA : internalCnt cmodZeroDecomp cmodZeroLinks "A" = 0 := by decide
  have hintB : internalCnt cmodZeroDecomp cmodZeroLinks "B" = 0 := by decide
  have hcfA : cfOf cmodZeroDecomp cmodZeroLinks "A" = none := by
    simp [cfOf, hextA, hintA]
  have hcfB : cfOf cmodZeroDecomp cmodZeroLinks "B" = none := by
    simp [cfOf, hextB, hintB]
  have hkeys : partKeys cmodZeroDecomp = ["A", "B"] := by decide
  have hfm : (partKeys cmodZeroDecomp).filterMap (cfOf cmodZeroDecomp cmodZeroLinks) = [] := by
    rw [hkeys]
    simp [hcfA, hcfB]
  simp [cmodPure, hfm]

theorem filterMap_eq_map_filter {α β : Type} (f : α → Option β) (g : α → β) (p : α → Bool)
    (l : List α) (h : ∀ a ∈ l, f a = if p a then some (g a) else none) :
    l.filterMap f = (l.filter p).map g := by
  induction l with
  | nil => rfl
  | cons x xs ih =>
    have hx := h x (List.mem_cons_self x xs)
    have ihx := ih (fun a ha => h a (List.mem_cons_of_mem _ ha))
    cases hp : p x <;>
      simp [List.filterMap_cons, List.filter_cons, hx, hp, ihx]

theorem wval_nonneg {e : Link} (h : weightOk e.weight = true) : 0 ≤ wval e.weight := by
  cases hw : e.weight <;> rw [hw] at h <;> simp [weightOk] at h <;>
    simp [wval, pyFloat]
  · exact h

theorem extW_nonneg (decomp : Decomp) (links : List Link) (p : String)
    (h : ∀ e ∈ links, weightOk e.weight = true) : 0 ≤ extW decomp links p := by
  have hgen : ∀ (f : Link → Bool), 0 ≤ ((links.filter f).map (fun e => wval e.weight)).sum := by
    intro f
    apply List.sum_nonneg
    intro x hx
    rw [List.mem_map] at hx
    obtain ⟨e, he, rfl⟩ := hx
    exact wval_nonneg (h e (List.mem_of_mem_filter he))
  exact add_nonneg (hgen _) (hgen _)

/-- Claim-side cluster factor of the amended claim: the quotient when the
external weight is positive, `1` otherwise. -/
def cfClaim (decomp : Decomp) (links : List Link) (p : String) : ℚ :=
  if 0 < extW decomp links p then
    (2 * internalCnt decomp links p : ℚ) /
      (2 * internalCnt decomp links p + extW decomp links p)
  else 1

/-- Amended qualification: positive internal edge count or positive external
weight sum. -/
def qualB (decomp : Decomp) (links : List Link) (p : String) : Bool :=
  decide (0 < internalCnt decomp links p ∨ 0 < extW decomp links p)

theorem cfOf_eq_claim (decomp : Decomp) (links : List Link) (p : String)
    (hext : 0 ≤ extW decomp links p) :
    cfOf decomp links p =
      if qualB decomp links p then some (cfClaim decomp links p) else none := by
  unfold cfOf cfClaim qualB
  rcases eq_or_lt_of_le hext with hz | hpos
  · rcases Nat.eq_zero_or_pos (internalCnt decomp links p) with hi | hi
    · rw [if_pos ⟨hz.symm, hi⟩, if_neg]
      simp only [decide_eq_true_eq, not_or, not_lt]
      exact ⟨by omega, le_of_eq hz.symm⟩
    · rw [if_neg (by intro hc; omega), if_pos hz.symm, if_pos]
      · rw [if_neg (by rw [← hz]; exact lt_irrefl _)]
      · simp only [decide_eq_true_eq]
        exact Or.inl hi
  · rw [if_neg (by intro hc; exact absurd hc.1 (ne_of_gt hpos)),
        if_neg (ne_of_gt hpos), if_pos]
    · rw [if_pos hpos]
    · simp only [decide_eq_true_eq]
      exact Or.inr hpos

/-- Amended claim C3: for every well-formed document, a partition qualifies
for the average exactly when its internal edge count is positive or its
external weight sum is positive (a partition whose only edges are zero-weight
cross edges is excluded, unlike what the claim states); over qualifying
partitions the cluster factor is the quotient when the external weight is
positive and `1` otherwise, `CMod` is their arithmetic mean, and it is "not
available" exactly when no partition qualifies in this amended sense. -/
theorem cmod_matches_amended (decomp : Decomp) (links : List Link)
    (hwf : WellFormedSL decomp links) :
    cmodPure decomp links =
      if (partKeys decomp).filter (qualB decomp links) = [] then none
      else some ((((partKeys decomp).filter (qualB decomp links)).map
                    (cfClaim decomp links)).sum /
                 (((partKeys decomp).filter (qualB decomp links)).length : ℚ)) := by
  obtain ⟨-, -, -, hw⟩ := hwf
  have hrw : (partKeys decomp).filterMap (cfOf decomp links) =
      ((partKeys decomp).filter (qualB decomp links)).map (cfClaim decomp links) :=
    filterMap_eq_map_filter _ _ _ _
      (fun p _ => cfOf_eq_claim decomp links p (extW_nonneg decomp links p hw))
  unfold cmodPure
  rw [hrw]
  by_cases hq : (partKeys decomp).filter (qualB decomp links) = []
  · rw [if_pos hq, if_pos (by rw [hq]; rfl)]
  · rw [if_neg hq, if_neg (by simpa using hq), List.length_map]

/-- Witness document for the amended C3: one internal and one cross edge. -/
def cmodWDecomp : Decomp := [("P", ["p1", "p2"]), ("Q", ["q"])]

/-- Witness links for the amended C3. -/
def cmodWLinks : List Link :=
  [⟨some "p1", some "p2", .absent⟩, ⟨some "p1", some "q", .absent⟩]

theorem mem_partKeys_of_mem_nodePairs {decomp : Decomp} {pr : String × String}
    (h : pr ∈ nodePairs decomp) : pr.2 ∈ partKeys decomp := by
  induction decomp with
  | nil => simp [nodePairs] at h
  | cons d rest ih =>
    rw [nodePairs, List.mem_append] at h
    rcases h with h | h
    · rw [List.mem_map] at h
      obtain ⟨n, -, rfl⟩ := h
      exact List.mem_cons_self _ _
    · exact List.mem_cons_of_mem _ (ih h)

theorem node2part_mem_partKeys {decomp : Decomp} {s p : String}
    (h : node2part decomp s = some p) : p ∈ partKeys decomp := by
  unfold node2part at h
  rcases hf : ((nodePairs decomp).reverse.find? (fun q => q.1 == s)) with _ | pr
  · rw [hf] at h; exact Option.noConfusion h
  · rw [hf] at h
    injection h with h
    have hm : pr ∈ (nodePairs decomp).reverse := List.mem_of_find?_eq_some hf
    rw [List.mem_reverse] at hm
    exact h ▸ mem_partKeys_of_mem_nodePairs hm

theorem getOpt_mem_partKeys {decomp : Decomp} {o : Option String} {p : String}
    (h : getOpt decomp o = some p) : p ∈ partKeys decomp := by
  rcases o with _ | s
  · exact Option.noConfusion h
  · exact node2part_mem_partKeys h

/-- Witness for the amended C3 on a concrete well-formed document. -/
theorem cmod_matches_amended_witness :
    WellFormedSL cmodWDecomp cmodWLinks ∧
    cmodPure cmodWDecomp cmodWLinks =
      (if (partKeys cmodWDecomp).filter (qualB cmodWDecomp cmodWLinks) = [] then none
       else some ((((partKeys cmodWDecomp).filter (qualB cmodWDecomp cmodWLinks)).map
                     (cfClaim cmodWDecomp cmodWLinks)).sum /
                  (((partKeys cmodWDecomp).filter (qualB cmodWDecomp cmodWLinks)).length : ℚ))) :=
  ⟨by decide, cmod_matches_amended cmodWDecomp cmodWLinks (by decide)⟩

/-! ## Service Coupling Factor (service_coupling_factor.py) -/

/-- Edge test of the `scf_for_file` loop: the pair is counted when
`s_src and s_dst and s_src != s_dst` holds — Python truthiness, so an
empty-string partition fails the test like an unknown one. -/
def classifyScf (decomp : Decomp) (e : Link) : Option (String × String) :=
  match getOpt decomp e.source, getOpt decomp e.target with
  | some a, some b => if a ≠ "" ∧ b ≠ "" ∧ a ≠ b then some (a, b) else none
  | _, _ => none

/-- `ext_edges`: the loop adds `1` per qualifying iteration, so the count is
the number of qualifying link occurrences (duplicates are not collapsed). -/
def extEdges (decomp : Decomp) (links : List Link) : ℕ :=
  (links.filter (fun e => (classifyScf decomp e).isSome)).length

/-- `scf_for_file`: `0.0` when `ext_edges + svc_count == 0`, otherwise
`math.sqrt(svc_count / (ext_edges + svc_count))`. -/
noncomputable def scfPure (decomp : Decomp) (links : List Link) : ℝ :=
  if extEdges decomp links + (partKeys decomp).length = 0 then 0
  else Real.sqrt (((partKeys decomp).length : ℝ) /
    ((extEdges decomp links + (partKeys decomp).length : ℕ) : ℝ))

/-- The claim-side edge count: the number of distinct cross-partition directed
edges, an edge being the ordered (source, target) pair of the data model. -/
def distinctCrossEdges (decomp : Decomp) (links : List Link) : ℕ :=
  (((links.filter (fun e => (classifyScf decomp e).isSome)).map
      (fun e => (e.source, e.target))).dedup).length

/-- Two partitions and the same cross edge listed twice. -/
def scfDupDecomp : Decomp := [("A", ["a"]), ("B", ["b"])]

/-- The duplicated links list. -/
def scfDupLinks : List Link :=
  [⟨some "a", some "b", .absent⟩, ⟨some "a", some "b", .absent⟩]

/-- Counterexample to claim C4 as stated: with the same cross edge listed
twice in a well-formed document there is one distinct cross-partition directed
edge, but the code counts two occurrences, giving `sqrt(2/4)` instead of the
claimed `sqrt(S / (S + E)) = sqrt(2/3)`. -/
theorem scf_counts_occurrences :
    WellFormedSL scfDupDecomp scfDupLinks ∧
    extEdges scfDupDecomp scfDupLinks = 2 ∧
    distinctCrossEdges scfDupDecomp scfDupLinks = 1 ∧
    scfPure scfDupDecomp scfDupLinks ≠
      Real.sqrt (((partKeys scfDupDecomp).length : ℝ) /
        (((partKeys scfDupDecomp).length + distinctCrossEdges scfDupDecomp scfDupLinks : ℕ) : ℝ)) := by
  refine ⟨by decide, by decide, by decide, ?_⟩
  have h1 : extEdges scfDupDecomp scfDupLinks = 2 := by decide
  have h2 : (partKeys scfDupDecomp).length = 2 := by decide
  have h3 : distinctCrossEdges scfDupDecomp scfDupLinks = 1 := by decide
  rw [scfPure, h1, h2, h3]
  rw [if_neg (by norm_num)]
  intro heq
  rw [Real.sqrt_inj (by norm_num) (by norm_num)] at heq
  norm_num at heq

/-- Positivity of the partition count whenever some link qualifies. -/
theorem partKeys_pos_of_extEdges_pos (decomp : Decomp) (links : List Link)
    (h : 0 < extEdges decomp links) : 0 < (partKeys decomp).length := by
  unfold extEdges at h
  rw [List.length_pos] at h
  obtain ⟨e, he⟩ := List.exists_mem_of_ne_nil _ h
  have hs := List.of_mem_filter he
  rw [Option.isSome_iff_exists] at hs
  obtain ⟨⟨a, b⟩, hab⟩ := hs
  unfold classifyScf at hab
  rcases hsrc : getOpt decomp e.source with _ | x
  · rw [hsrc] at hab; exact Option.noConfusion hab
  rcases htgt : getOpt decomp e.target with _ | y
  · rw [hsrc, htgt] at hab; exact Option.noConfusion hab
  have hx := getOpt_mem_partKeys hsrc
  rw [List.length_pos]
  intro hnil
  rw [hnil] at hx
  exact List.not_mem_nil _ hx

/-- Amended claim C4: `SCF = sqrt(S / (S + E))` when `S + E > 0` and `0`
otherwise, where `E` counts cross-partition link **occurrences** (a repeated
link descriptor is counted each time, not deduplicated); and `SCF = 0` holds
exactly when `S + E = 0`. -/
theorem scf_matches_amended (decomp : Decomp) (links : List Link)
    (_hwf : WellFormedSL decomp links) :
    (scfPure decomp links =
      if (partKeys decomp).length + extEdges decomp links = 0 then 0
      else Real.sqrt (((partKeys decomp).length : ℝ) /
        (((partKeys decomp).length + extEdges decomp links : ℕ) : ℝ))) ∧
    (scfPure decomp links = 0 ↔ (partKeys decomp).length + extEdges decomp links = 0) := by
  have hcomm : extEdges decomp links + (partKeys decomp).length =
      (partKeys decomp).length + extEdges decomp links := Nat.add_comm _ _
  constructor
  · rw [scfPure, hcomm]
  · rw [scfPure, hcomm]
    by_cases h0 : (partKeys decomp).length + extEdges decomp links = 0
    · rw [if_pos h0]
      simp [h0]
    · rw [if_neg h0]
      constructor
      · intro hs
        exfalso
        have hS : 0 < (partKeys decomp).length := by
          rcases Nat.eq_zero_or_pos (extEdges decomp links) with hE | hE
          · omega
          · exact partKeys_pos_of_extEdges_pos decomp links hE
        have hfrac : 0 < ((partKeys decomp).length : ℝ) /
            (((partKeys decomp).length + extEdges decomp links : ℕ) : ℝ) := by
          apply div_pos
          · exact_mod_cast hS
          · have : 0 < (partKeys decomp).length + extEdges decomp links := by omega
            exact_mod_cast this
        rw [← Real.sqrt_pos] at hfrac
        rw [hs] at hfrac
        exact lt_irrefl _ hfrac
      · intro h; exact absurd h h0

/-- Witness for the amended C4 on the duplicated-edge document. -/
theorem scf_matches_amended_witness :
    WellFormedSL scfDupDecomp scfDupLinks ∧
    (scfPure scfDupDecomp scfDupLinks = 0 ↔
      (partKeys scfDupDecomp).length + extEdges scfDupDecomp scfDupLinks = 0) :=
  ⟨by decide, (scf_matches_amended scfDupDecomp scfDupLinks (by decide)).2⟩

/-! ## Size MAD (smad.py) -/

/-- `SMAD = 1 − MAD / (MAD + 7)` with the fixed constant `K = 7`. -/
def smadScore (mad : ℚ) : ℚ := 1 - mad / (mad + 7)

/-- `sizes = [len(nodes) for nodes in decomp.values()]`: every partition
counts, whether or not any edge touches it. -/
def sizesOf (decomp : Decomp) : List ℕ := decomp.map (fun pr => pr.2.length)

/-- The sizes as rationals (the statistics are computed over exact numbers). -/
def sizesQ (decomp : Decomp) : List ℚ := (sizesOf decomp).map (fun n => (n : ℚ))

/-- Result record of `analyze_file` in smad.py. -/
structure SmadRes where
  services : ℕ
  MADraw : ℚ
  medSize : ℚ
  minSize : ℕ
  maxSize : ℕ
  SMAD : ℚ
deriving DecidableEq

/-- `analyze_file`: `None` when there is no partition, otherwise the record of
statistics over the partition sizes (`min`/`max` fold over the nonempty list,
matching Python's `min(sizes)`/`max(sizes)`). -/
def analyzeSmad (decomp : Decomp) : Option SmadRes :=
  if sizesOf decomp = [] then none
  else
    some ⟨(sizesOf decomp).length,
          madOf (sizesQ decomp),
          pymedian (sizesQ decomp),
          (sizesOf decomp).foldl Nat.min ((sizesOf decomp).headD 0),
          (sizesOf decomp).foldl Nat.max ((sizesOf decomp).headD 0),
          smadScore (madOf (sizesQ decomp))⟩

/-- Scenario 4 document: partition sizes `[2, 4, 4, 10]`. -/
def smadScDecomp : Decomp :=
  [("P1", ["a", "b"]), ("P2", ["c", "d", "e", "f"]), ("P3", ["g", "h", "i", "j"]),
   ("P4", ["k1", "k2", "k3", "k4", "k5", "k6", "k7", "k8", "k9", "k10"])]

/-- Claim C5: for every well-formed document, SMAD is "not available" exactly
when there are zero partitions, otherwise it equals `1 − MAD / (MAD + 7)` over
the node counts of all partitions (including edgeless ones); and on sizes
`[2, 4, 4, 10]` (median 4, MAD 1) the result is `0.875 = 7/8`. -/
theorem smad_matches_spec :
    (∀ (decomp : Decomp) (links : List Link), WellFormedSL decomp links →
      ((analyzeSmad decomp = none ↔ decomp = []) ∧
       ∀ r, analyzeSmad decomp = some r →
         r.SMAD = 1 - madOf (sizesQ decomp) / (madOf (sizesQ decomp) + 7))) ∧
    (∃ r, analyzeSmad smadScDecomp = some r ∧ r.SMAD = 7 / 8) := by
  constructor
  · intro decomp links _
    constructor
    · constructor
      · intro hn
        by_cases h : sizesOf decomp = []
        · unfold sizesOf at h
          exact List.map_eq_nil_iff.mp h
        · unfold analyzeSmad at hn
          rw [if_neg h] at hn
          exact Option.noConfusion hn
      · intro h
        subst h
        rfl
    · intro r hr
      by_cases h : sizesOf decomp = []
      · unfold analyzeSmad at hr
        rw [if_pos h] at hr
        exact Option.noConfusion hr
      · unfold analyzeSmad at hr
        rw [if_neg h] at hr
        injection hr with hr
        rw [← hr]
        show smadScore (madOf (sizesQ decomp)) = _
        unfold smadScore
        rfl
  · refine ⟨⟨(sizesOf smadScDecomp).length, madOf (sizesQ smadScDecomp),
             pymedian (sizesQ smadScDecomp),
             (sizesOf smadScDecomp).foldl Nat.min ((sizesOf smadScDecomp).headD 0),
             (sizesOf smadScDecomp).foldl Nat.max ((sizesOf smadScDecomp).headD 0),
             smadScore (madOf (sizesQ smadScDecomp))⟩, ?_, ?_⟩
    · unfold analyzeSmad
      rw [if_neg (by decide)]
    · show smadScore (madOf (sizesQ smadScDecomp)) = 7 / 8
      have h1 : sizesQ smadScDecomp = [2, 4, 4, 10] := by
        norm_num [sizesQ, sizesOf, smadScDecomp]
      have h2 : madOf (sizesQ smadScDecomp) = 1 := by
        rw [h1]
        norm_num [madOf, pymedian, List.insertionSort, List.orderedInsert]
      rw [h2]
      norm_num [smadScore]

/-- Witness for C5 at the scenario document (with an empty links list). -/
theorem smad_matches_spec_witness :
    WellFormedSL smadScDecomp [] ∧ (analyzeSmad smadScDecomp = none ↔ smadScDecomp = []) :=
  ⟨by decide, (smad_matches_spec.1 smadScDecomp [] (by decide)).1⟩

/-! ## Depth MAD (dccmd.py) -/

/-- Lookup in the service adjacency dict (`adj[node]`); on every call the
source makes, `node` is a key, so the `[]` default is never read there. -/
def adjGet (adjL : List (String × List String)) (node : String) : List String :=
  ((adjL.find? (fun pr => pr.1 == node)).map (fun pr => pr.2)).getD []

/-- Every service occurring in the adjacency structure (keys and targets):
the finite universe that bounds the depth-first search. -/
def univA : List (String × List String) → Finset String
  | [] => ∅
  | pr :: rest => insert pr.1 (pr.2.toFinset ∪ univA rest)

theorem mem_univA_of_mem_entry {adjL : List (String × List String)}
    {pr : String × List String} (hm : pr ∈ adjL) {q : String} (hq : q ∈ pr.2) :
    q ∈ univA adjL := by
  induction adjL with
  | nil => exact absurd hm (List.not_mem_nil pr)
  | cons d rest ih =>
    rw [univA]
    rcases List.mem_cons.mp hm with rfl | hm2
    · exact Finset.mem_insert_of_mem (Finset.mem_union_left _ (List.mem_toFinset.mpr hq))
    · exact Finset.mem_insert_of_mem (Finset.mem_union_right _ (ih hm2))

theorem exists_entry_of_mem_adjGet {adjL : List (String × List String)}
    {node q : String} (h : q ∈ adjGet adjL node) : ∃ pr ∈ adjL, q ∈ pr.2 := by
  unfold adjGet at h
  rcases hf : adjL.find? (fun pr => pr.1 == node) with _ | pr
  · rw [hf] at h
    exact absurd h (List.not_mem_nil q)
  · rw [hf] at h
    exact ⟨pr, List.mem_of_find?_eq_some hf, h⟩

theorem mem_univA_of_mem_adjGet {adjL : List (String × List String)}
    {node q : String} (h : q ∈ adjGet adjL node) : q ∈ univA adjL := by
  obtain ⟨pr, hm, hq⟩ := exists_entry_of_mem_adjGet h
  exact mem_univA_of_mem_entry hm hq

theorem card_sdiff_cons_lt {adjL : List (String × List String)} {seen : List String}
    {b : String} (hb : b ∈ univA adjL) (hbs : b ∉ seen) :
    (univA adjL \ (b :: seen).toFinset).card < (univA adjL \ seen.toFinset).card := by
  rw [List.toFinset_cons, Finset.sdiff_insert]
  exact Finset.card_erase_lt_of_mem
    (Finset.mem_sdiff.mpr ⟨hb, by simpa using hbs⟩)

/-- The inner `dfs(node, seen)` of `longest_path`: the best hop count
reachable from `node` without revisiting anything in `seen` (each visited
service is added to `seen`; `best` starts at `0` and takes
`max(best, 1 + dfs(nxt, seen | {nxt}))` over the unvisited successors).  The
`lru_cache` of the source memoizes a pure function keyed by exactly the
argument pair, so it is semantically transparent; the frozenset `seen` is
modelled by the list of its members.  The recursion is well-founded because
every recursive call strictly shrinks the complement of `seen` inside the
finite universe `univA`. -/
def dfs (adjL : List (String × List String)) (node : String) (seen : List String) : ℕ :=
  ((adjGet adjL node).attach.map (fun nxt =>
    if _h : nxt.1 ∈ seen then 0 else 1 + dfs adjL nxt.1 (nxt.1 :: seen))).foldl max 0
termination_by (univA adjL \ seen.toFinset).card
decreasing_by
  exact card_sdiff_cons_lt (mem_univA_of_mem_adjGet nxt.2) _h

theorem dfs_unfold (adjL : List (String × List String)) (node : String)
    (seen : List String) :
    dfs adjL node seen = ((adjGet adjL node).map (fun nxt =>
      if nxt ∈ seen then 0 else 1 + dfs adjL nxt (nxt :: seen))).foldl max 0 := by
  rw [dfs]
  congr 1
  rw [← List.attach_map_val (adjGet adjL node) (fun nxt =>
    if nxt ∈ seen then 0 else 1 + dfs adjL nxt (nxt :: seen))]
  apply List.map_congr_left
  intro x _
  rw [dite_eq_ite]

/-- `longest_path(start, adj)`: the search starts with `seen = {start}`. -/
def longestPath (adjL : List (String × List String)) (start : String) : ℕ :=
  dfs adjL start [start]

theorem foldl_max_le_iff (l : List ℕ) (a n : ℕ) :
    l.foldl max a ≤ n ↔ a ≤ n ∧ ∀ x ∈ l, x ≤ n := by
  induction l generalizing a with
  | nil => simp
  | cons x xs ih =>
    rw [List.foldl_cons, ih]
    constructor
    · rintro ⟨h1, h2⟩
      rw [max_le_iff] at h1
      exact ⟨h1.1, fun y hy => by
        rcases List.mem_cons.mp hy with rfl | hy2
        · exact h1.2
        · exact h2 y hy2⟩
    · rintro ⟨h1, h2⟩
      exact ⟨max_le_iff.mpr ⟨h1, h2 x (List.mem_cons_self x xs)⟩,
        fun y hy => h2 y (List.mem_cons_of_mem _ hy)⟩

theorem foldl_max_mem (l : List ℕ) (a : ℕ) :
    l.foldl max a = a ∨ l.foldl max a ∈ l := by
  induction l generalizing a with
  | nil => exact Or.inl rfl
  | cons x xs ih =>
    rw [List.foldl_cons]
    rcases ih (max a x) with h | h
    · rcases max_choice a x with hm | hm
      · exact Or.inl (h.trans hm)
      · exact Or.inr (by rw [h, hm]; exact List.mem_cons_self x xs)
    · exact Or.inr (List.mem_cons_of_mem _ h)

/-- A directed walk in the service adjacency structure: each entry of the
list is a successor of the previous one (the head being a successor of `a`). -/
def IsChainFrom (adjL : List (String × List String)) : String → List String → Prop
  | _, [] => True
  | a, b :: r => b ∈ adjGet adjL a ∧ IsChainFrom adjL b r

theorem le_dfs_of_step {adjL : List (String × List String)} {node : String}
    {seen : List String} {b : String} (hb : b ∈ adjGet adjL node) (hbs : b ∉ seen) :
    1 + dfs adjL b (b :: seen) ≤ dfs adjL node seen := by
  rw [dfs_unfold adjL node seen]
  have hmem : (if b ∈ seen then 0 else 1 + dfs adjL b (b :: seen)) ∈
      (adjGet adjL node).map (fun nxt =>
        if nxt ∈ seen then 0 else 1 + dfs adjL nxt (nxt :: seen)) :=
    List.mem_map_of_mem _ hb
  rw [if_neg hbs] at hmem
  exact ((foldl_max_le_iff _ _ _).mp le_rfl).2 _ hmem

theorem dfs_ub (adjL : List (String × List String)) (rest : List String) :
    ∀ (node : String) (seen : List String),
    IsChainFrom adjL node rest → rest.Nodup → (∀ x ∈ rest, x ∉ seen) →
    rest.length ≤ dfs adjL node seen := by
  induction rest with
  | nil => intro node seen _ _ _; exact Nat.zero_le _
  | cons b r ih =>
    intro node seen hch hnd havoid
    obtain ⟨hb, hch2⟩ := hch
    rw [List.nodup_cons] at hnd
    have havoid2 : ∀ x ∈ r, x ∉ b :: seen := by
      intro x hx
      rw [List.mem_cons]
      rintro (rfl | hmem)
      · exact hnd.1 hx
      · exact havoid x (List.mem_cons_of_mem _ hx) hmem
    have h1 := ih b (b :: seen) hch2 hnd.2 havoid2
    have h2 := le_dfs_of_step hb (havoid b (List.mem_cons_self _ _))
    rw [List.length_cons]
    omega

theorem dfs_mem (adjL : List (String × List String)) :
    ∀ (seen : List String) (node : String),
    ∃ rest, IsChainFrom adjL node rest ∧ rest.Nodup ∧ (∀ x ∈ rest, x ∉ seen) ∧
      rest.length = dfs adjL node seen := by
  suffices H : ∀ (k : ℕ) (seen : List String) (node : String),
      (univA adjL \ seen.toFinset).card = k →
      ∃ rest, IsChainFrom adjL node rest ∧ rest.Nodup ∧ (∀ x ∈ rest, x ∉ seen) ∧
        rest.length = dfs adjL node seen by
    exact fun seen node => H _ seen node rfl
  intro k
  induction k using Nat.strong_induction_on with
  | _ k IH =>
    intro seen node hk
    rcases foldl_max_mem ((adjGet adjL node).map (fun nxt =>
      if nxt ∈ seen then 0 else 1 + dfs adjL nxt (nxt :: seen))) 0 with h0 | hmem
    · refine ⟨[], trivial, List.nodup_nil, by simp, ?_⟩
      rw [dfs_unfold, h0]
      rfl
    · rw [List.mem_map] at hmem
      obtain ⟨b, hb, hval⟩ := hmem
      by_cases hbs : b ∈ seen
      · rw [if_pos hbs] at hval
        refine ⟨[], trivial, List.nodup_nil, by simp, ?_⟩
        rw [dfs_unfold, ← hval]
        rfl
      · rw [if_neg hbs] at hval
        have hlt : (univA adjL \ (b :: seen).toFinset).card < k :=
          hk ▸ card_sdiff_cons_lt (mem_univA_of_mem_adjGet hb) hbs
        obtain ⟨r, hch, hnd, havoid, hlen⟩ := IH _ hlt (b :: seen) b rfl
        have hbr : b ∉ r := fun hx =>
          (havoid b hx) (List.mem_cons_self _ _)
        refine ⟨b :: r, ⟨hb, hch⟩, List.nodup_cons.mpr ⟨hbr, hnd⟩, ?_, ?_⟩
        · intro x hx
          rcases List.mem_cons.mp hx with rfl | hx2
          · exact hbs
          · intro hmem
            exact havoid x hx2 (List.mem_cons_of_mem _ hmem)
        · rw [List.length_cons, dfs_unfold, ← hval]
          omega

/-- The depth-first search of `longest_path` computes exactly the greatest
length of a simple walk from `node` avoiding `seen`. -/
theorem dfs_isGreatest (adjL : List (String × List String)) (node : String)
    (seen : List String) :
    IsGreatest {n | ∃ rest, IsChainFrom adjL node rest ∧ rest.Nodup ∧
      (∀ x ∈ rest, x ∉ seen) ∧ rest.length = n} (dfs adjL node seen) := by
  constructor
  · exact dfs_mem adjL seen node
  · rintro n ⟨rest, h1, h2, h3, rfl⟩
    exact dfs_ub adjL rest node seen h1 h2 h3

theorem chain_subset_keys {adjL : List (String × List String)}
    (hclosed : ∀ pr ∈ adjL, ∀ t ∈ pr.2, t ∈ adjL.map Prod.fst) :
    ∀ (rest : List String) (node : String), IsChainFrom adjL node rest →
      ∀ x ∈ rest, x ∈ adjL.map Prod.fst := by
  intro rest
  induction rest with
  | nil => intro node _ x hx; exact absurd hx (List.not_mem_nil x)
  | cons b r ih =>
    intro node hch x hx
    obtain ⟨hb, hch2⟩ := hch
    obtain ⟨pr, hpr, hbpr⟩ := exists_entry_of_mem_adjGet hb
    rcases List.mem_cons.mp hx with rfl | hx2
    · exact hclosed pr hpr x hbpr
    · exact ih b hch2 x hx2

/-- Claim C10: on an adjacency map all of whose targets are themselves keys,
the depth-first search behind `longest_path` terminates for every start key —
in this development `dfs` is defined by well-founded recursion on exactly the
claim's measure (the visited set strictly grows inside the finite service
universe), so `longestPath` is a total function — and the returned depth is at
most the number of services minus one. -/
theorem longest_path_bounded (adjL : List (String × List String)) (start : String)
    (hclosed : ∀ pr ∈ adjL, ∀ t ∈ pr.2, t ∈ adjL.map Prod.fst)
    (hstart : start ∈ adjL.map Prod.fst) :
    longestPath adjL start ≤ (adjL.map Prod.fst).length - 1 := by
  obtain ⟨rest, hch, hnd, havoid, hlen⟩ := dfs_mem adjL [start] start
  rw [longestPath, ← hlen]
  have hsub : rest.toFinset ⊆ ((adjL.map Prod.fst).toFinset).erase start := by
    intro x hx
    rw [List.mem_toFinset] at hx
    rw [Finset.mem_erase]
    refine ⟨?_, List.mem_toFinset.mpr (chain_subset_keys hclosed rest start hch x hx)⟩
    intro heq
    exact (havoid x hx) (by rw [heq]; exact List.mem_cons_self _ _)
  have h1 : rest.toFinset.card = rest.length := List.toFinset_card_of_nodup hnd
  have h2 : rest.toFinset.card ≤ (((adjL.map Prod.fst).toFinset).erase start).card :=
    Finset.card_le_card hsub
  have h3 : (((adjL.map Prod.fst).toFinset).erase start).card =
      ((adjL.map Prod.fst).toFinset).card - 1 :=
    Finset.card_erase_of_mem (List.mem_toFinset.mpr hstart)
  have h4 : ((adjL.map Prod.fst).toFinset).card ≤ (adjL.map Prod.fst).length :=
    List.toFinset_card_le _
  omega

/-- A three-service chain adjacency structure `A → B → C`. -/
def chainAdj : List (String × List String) := [("A", ["B"]), ("B", ["C"]), ("C", [])]

/-- Witness for C10 on the chain `A → B → C`. -/
theorem longest_path_bounded_witness :
    (∀ pr ∈ chainAdj, ∀ t ∈ pr.2, t ∈ chainAdj.map Prod.fst) ∧
    "A" ∈ chainAdj.map Prod.fst ∧
    longestPath chainAdj "A" ≤ (chainAdj.map Prod.fst).length - 1 :=
  ⟨by decide, by decide, longest_path_bounded chainAdj "A" (by decide) (by decide)⟩

/-- `adj[a].add(b)` on the dict of sets: update the entries keyed `a`,
appending `b` to the membership list when it is not yet present. -/
def addAdj (adjL : List (String × List String)) (a b : String) :
    List (String × List String) :=
  adjL.map (fun pr =>
    if pr.1 = a then (pr.1, if b ∈ pr.2 then pr.2 else pr.2 ++ [b]) else pr)

/-- One iteration of the adjacency-building loop of `depths_for_file`: add
`s_src → s_dst` when `s_src and s_dst and s_src != s_dst` holds (Python
truthiness). -/
def adjStep (decomp : Decomp) (adjL : List (String × List String)) (e : Link) :
    List (String × List String) :=
  match getOpt decomp e.source, getOpt decomp e.target with
  | some a, some b => if a ≠ "" ∧ b ≠ "" ∧ a ≠ b then addAdj adjL a b else adjL
  | _, _ => adjL

/-- The service-level adjacency of `depths_for_file`: start from
`{s: set() for s in services}` and run the loop over the links. -/
def serviceAdjL (decomp : Decomp) (links : List Link) :
    List (String × List String) :=
  links.foldl (adjStep decomp) ((partKeys decomp).map (fun p => (p, ([] : List String))))

/-- `"USE CASE" in story.upper()`: the case-insensitive story marker test
(`str.upper` is modelled per character, which agrees on ASCII labels). -/
def hasMarker (story : String) : Bool :=
  decide ("USE CASE".toList <:+: story.toList.map Char.toUpper)

/-- One `story2svcs[story].add(svc)` step on the defaultdict of sets
(entries appear in first-qualifying-occurrence order). -/
def addStory (st : List (String × List String)) (story svc : String) :
    List (String × List String) :=
  if st.any (fun pr => pr.1 == story) then
    st.map (fun pr =>
      if pr.1 = story then (pr.1, if svc ∈ pr.2 then pr.2 else pr.2 ++ [svc]) else pr)
  else st ++ [(story, [svc])]

/-- One iteration of the story-collecting loop of `depths_for_file`: a
business link is recorded when its label is a string containing the marker
and its target maps to a truthy service. -/
def storyStep (decomp : Decomp) (st : List (String × List String)) (e : BLink) :
    List (String × List String) :=
  match e.source with
  | some story =>
    if hasMarker story then
      match getOpt decomp e.target with
      | some svc => if svc ≠ "" then addStory st story svc else st
      | none => st
    else st
  | none => st

/-- The `story → starting services` map of `depths_for_file`. -/
def story2svcs (decomp : Decomp) (busLinks : List BLink) :
    List (String × List String) :=
  busLinks.foldl (storyStep decomp) []

/-- Per-story depth: `best = max(best, longest_path(s, adj))` over the touched
services, starting from `0`. -/
def storyDepth (adjL : List (String × List String)) (svcs : List String) : ℕ :=
  (svcs.map (longestPath adjL)).foldl max 0

/-- `depths_for_file` after both layers parsed: `(None, svc_cnt)` when there
is no qualifying story, otherwise the per-story depths in story insertion
order together with the service count. -/
def depthsForDoc (decomp : Decomp) (links : List Link) (busLinks : List BLink) :
    Option (List ℕ) × ℕ :=
  if story2svcs decomp busLinks = [] then (none, (partKeys decomp).length)
  else (some ((story2svcs decomp busLinks).map
          (fun pr => storyDepth (serviceAdjL decomp links) pr.2)),
        (partKeys decomp).length)

/-- `DCCMD = 1 − MAD / (MAD + 2)` with the fixed constant `c' = 2.0`. -/
def dccmdScore (mad : ℚ) : ℚ := 1 - mad / (mad + 2)

/-- The per-file DCCMD value `main` computes: "not available" when
`depths_for_file` produced no depths (`if not depths`), otherwise the score
over the per-story depths. -/
def dccmdValue (decomp : Decomp) (links : List Link) (busLinks : List BLink) :
    Option ℚ :=
  match (depthsForDoc decomp links busLinks).1 with
  | none => none
  | some ds =>
    if ds = [] then none
    else some (dccmdScore (madOf (ds.map (fun n => (n : ℚ)))))

theorem mem_insApp (l : List String) (b x : String) :
    x ∈ (if b ∈ l then l else l ++ [b]) ↔ x ∈ l ∨ x = b := by
  by_cases hb : b ∈ l
  · rw [if_pos hb]
    constructor
    · exact Or.inl
    · rintro (h | rfl)
      · exact h
      · exact hb
  · rw [if_neg hb]
    simp [List.mem_append]

theorem addAdj_keys (adjL : List (String × List String)) (a b : String) :
    (addAdj adjL a b).map Prod.fst = adjL.map Prod.fst := by
  unfold addAdj
  rw [List.map_map]
  apply List.map_congr_left
  intro pr _
  by_cases h : pr.1 = a <;> simp [Function.comp, h]

theorem adjGet_addAdj_ne (adjL : List (String × List String)) (a b p : String)
    (hpa : p ≠ a) : adjGet (addAdj adjL a b) p = adjGet adjL p := by
  induction adjL with
  | nil => rfl
  | cons d rest ih =>
    obtain ⟨d1, d2⟩ := d
    by_cases hda : d1 = a
    · subst hda
      have hdp : (d1 == p) = false := by
        rw [beq_eq_false_iff_ne]
        exact fun h => hpa (h.symm)
      unfold addAdj adjGet at ih ⊢
      rw [List.map_cons, if_pos rfl, List.find?_cons, List.find?_cons]
      simp only [hdp]
      exact ih
    · unfold addAdj adjGet at ih ⊢
      rw [List.map_cons, if_neg hda, List.find?_cons, List.find?_cons]
      cases hdp : (d1 == p)
      · exact ih
      · rfl

theorem adjGet_addAdj_eq (adjL : List (String × List String)) (a b : String)
    (ha : a ∈ adjL.map Prod.fst) :
    adjGet (addAdj adjL a b) a =
      if b ∈ adjGet adjL a then adjGet adjL a else adjGet adjL a ++ [b] := by
  induction adjL with
  | nil => exact absurd ha (List.not_mem_nil a)
  | cons d rest ih =>
    obtain ⟨d1, d2⟩ := d
    by_cases hda : d1 = a
    · subst hda
      unfold addAdj adjGet
      rw [List.map_cons, if_pos rfl, List.find?_cons, List.find?_cons]
      simp only [beq_self_eq_true]
      rfl
    · have hmem : a ∈ rest.map Prod.fst := by
        rcases List.mem_cons.mp ha with h | h
        · exact absurd h.symm hda
        · exact h
      have hdb : (d1 == a) = false := beq_eq_false_iff_ne.mpr hda
      unfold addAdj adjGet at ih ⊢
      rw [List.map_cons, if_neg hda, List.find?_cons, List.find?_cons]
      simp only [hdb]
      exact ih hmem

/-- The condition under which the adjacency loop records `p → q` for a link. -/
def dccmdEdge (decomp : Decomp) (e : Link) (p q : String) : Prop :=
  getOpt decomp e.source = some p ∧ getOpt decomp e.target = some q ∧
  p ≠ "" ∧ q ≠ "" ∧ p ≠ q

theorem adjStep_keys (decomp : Decomp) (adjL : List (String × List String))
    (e : Link) : (adjStep decomp adjL e).map Prod.fst = adjL.map Prod.fst := by
  unfold adjStep
  rcases getOpt decomp e.source with _ | a
  · rfl
  rcases getOpt decomp e.target with _ | b
  · rfl
  dsimp only
  by_cases hg : a ≠ "" ∧ b ≠ "" ∧ a ≠ b
  · rw [if_pos hg]
    exact addAdj_keys adjL a b
  · rw [if_neg hg]

theorem mem_adjGet_adjStep (decomp : Decomp) (adjL : List (String × List String))
    (e : Link) (p q : String) (hkeys : adjL.map Prod.fst = partKeys decomp) :
    q ∈ adjGet (adjStep decomp adjL e) p ↔
      q ∈ adjGet adjL p ∨ dccmdEdge decomp e p q := by
  unfold adjStep dccmdEdge
  rcases hs : getOpt decomp e.source with _ | a
  · simp [hs]
  rcases ht : getOpt decomp e.target with _ | b
  · simp [ht]
  dsimp only
  by_cases hg : a ≠ "" ∧ b ≠ "" ∧ a ≠ b
  · rw [if_pos hg]
    by_cases hpa : p = a
    · subst hpa
      have hmem : p ∈ adjL.map Prod.fst := by
        rw [hkeys]
        exact getOpt_mem_partKeys hs
      rw [adjGet_addAdj_eq adjL p b hmem, mem_insApp]
      constructor
      · rintro (h | rfl)
        · exact Or.inl h
        · exact Or.inr ⟨rfl, rfl, hg.1, hg.2.1, hg.2.2⟩
      · rintro (h | ⟨-, hbq, -, -, -⟩)
        · exact Or.inl h
        · injection hbq with h2
          exact Or.inr h2.symm
    · rw [adjGet_addAdj_ne adjL a b p hpa]
      constructor
      · exact Or.inl
      · rintro (h | ⟨hpq, -, -, -, -⟩)
        · exact h
        · injection hpq with h2
          exact absurd h2.symm hpa
  · rw [if_neg hg]
    constructor
    · exact Or.inl
    · rintro (h | ⟨hpq, hqq, h1, h2, h3⟩)
      · exact h
      · injection hpq with hap
        injection hqq with hbq
        subst hap
        subst hbq
        exact absurd ⟨h1, h2, h3⟩ hg

theorem mem_adjGet_foldl (decomp : Decomp) (links : List Link) :
    ∀ (adjL0 : List (String × List String)),
    adjL0.map Prod.fst = partKeys decomp → ∀ p q,
    (q ∈ adjGet (links.foldl (adjStep decomp) adjL0) p ↔
      q ∈ adjGet adjL0 p ∨ ∃ e ∈ links, dccmdEdge decomp e p q) := by
  induction links with
  | nil => intro adjL0 _ p q; simp
  | cons e rest ih =>
    intro adjL0 hkeys p q
    rw [List.foldl_cons,
      ih (adjStep decomp adjL0 e) (by rw [adjStep_keys]; exact hkeys) p q,
      mem_adjGet_adjStep decomp adjL0 e p q hkeys]
    constructor
    · rintro ((h | h) | ⟨e2, he2, h⟩)
      · exact Or.inl h
      · exact Or.inr ⟨e, List.mem_cons_self _ _, h⟩
      · exact Or.inr ⟨e2, List.mem_cons_of_mem _ he2, h⟩
    · rintro (h | ⟨e2, he2, h⟩)
      · exact Or.inl (Or.inl h)
      · rcases List.mem_cons.mp he2 with rfl | he3
        · exact Or.inl (Or.inr h)
        · exact Or.inr ⟨e2, he3, h⟩

theorem adjGet_init (ps : List String) (p : String) :
    adjGet (ps.map (fun x => (x, ([] : List String)))) p = [] := by
  induction ps with
  | nil => rfl
  | cons x rest ih =>
    unfold adjGet at ih ⊢
    rw [List.map_cons, List.find?_cons]
    cases h : ((x, ([] : List String)).1 == p)
    · exact ih
    · rfl

/-- Under well-formedness the service-level adjacency relation of dccmd.py is
exactly the cross-partition dependency relation of the specification. -/
theorem mem_adjGet_serviceAdjL (decomp : Decomp) (links : List Link)
    (hwf : WellFormedSL decomp links) (p q : String) :
    q ∈ adjGet (serviceAdjL decomp links) p ↔ CrossDep decomp links p q := by
  unfold serviceAdjL
  rw [mem_adjGet_foldl decomp links _ (by rw [List.map_map]; simp [Function.comp, partKeys]) p q,
    adjGet_init]
  simp only [List.not_mem_nil, false_or]
  unfold dccmdEdge CrossDep
  constructor
  · rintro ⟨e, he, h1, h2, -, -, h5⟩
    exact ⟨h5, e, he, h1, h2⟩
  · rintro ⟨hpq, e, he, h1, h2⟩
    exact ⟨e, he, h1, h2,
      hwf.2.1 p (getOpt_mem_partKeys h1),
      hwf.2.1 q (getOpt_mem_partKeys h2), hpq⟩

/-- Membership in the `story2svcs` defaultdict: `x` is one of the services
recorded for `story`. -/
def MemSv (st : List (String × List String)) (story x : String) : Prop :=
  ∃ svcs, (story, svcs) ∈ st ∧ x ∈ svcs

/-- The condition under which the story loop records service `x` for `story`
from a business link. -/
def BTouch (decomp : Decomp) (b : BLink) (story x : String) : Prop :=
  b.source = some story ∧ hasMarker story = true ∧
  getOpt decomp b.target = some x ∧ x ≠ ""

theorem memSv_addStory (st : List (String × List String)) (story svc story' x : String) :
    MemSv (addStory st story svc) story' x ↔
      MemSv st story' x ∨ (story' = story ∧ x = svc) := by
  unfold addStory MemSv
  by_cases hany : st.any (fun pr => pr.1 == story) = true
  · rw [if_pos hany]
    constructor
    · rintro ⟨svcs, hmem, hx⟩
      rw [List.mem_map] at hmem
      obtain ⟨pr, hpr, hf⟩ := hmem
      by_cases hk : pr.1 = story
      · rw [if_pos hk] at hf
        injection hf with hf1 hf2
        rw [← hf2, mem_insApp] at hx
        rcases hx with hx | rfl
        · refine Or.inl ⟨pr.2, ?_, hx⟩
          rw [← hf1]
          exact hpr
        · exact Or.inr ⟨hf1.symm.trans hk, rfl⟩
      · rw [if_neg hk] at hf
        exact Or.inl ⟨svcs, hf ▸ hpr, hx⟩
    · rintro (⟨svcs, hmem, hx⟩ | ⟨h1, h2⟩)
      · have hmm := List.mem_map_of_mem
          (fun pr => if pr.1 = story then
            (pr.1, if svc ∈ pr.2 then pr.2 else pr.2 ++ [svc]) else pr) hmem
        dsimp only at hmm
        by_cases hk : story' = story
        · rw [if_pos hk] at hmm
          exact ⟨_, hmm, mem_insApp _ _ _ |>.mpr (Or.inl hx)⟩
        · rw [if_neg hk] at hmm
          exact ⟨svcs, hmm, hx⟩
      · subst h1
        subst h2
        rw [List.any_eq_true] at hany
        obtain ⟨pr, hpr, hk⟩ := hany
        rw [beq_iff_eq] at hk
        have hmm := List.mem_map_of_mem
          (fun pr2 => if pr2.1 = story' then
            (pr2.1, if x ∈ pr2.2 then pr2.2 else pr2.2 ++ [x]) else pr2) hpr
        dsimp only at hmm
        rw [if_pos hk, hk] at hmm
        exact ⟨_, hmm, mem_insApp _ _ _ |>.mpr (Or.inr rfl)⟩
  · rw [if_neg hany]
    constructor
    · rintro ⟨svcs, hmem, hx⟩
      rw [List.mem_append] at hmem
      rcases hmem with hmem | hmem
      · exact Or.inl ⟨svcs, hmem, hx⟩
      · rw [List.mem_singleton] at hmem
        injection hmem with h1 h2
        rw [h2] at hx
        rw [List.mem_singleton] at hx
        exact Or.inr ⟨h1, hx⟩
    · rintro (⟨svcs, hmem, hx⟩ | ⟨h1, h2⟩)
      · exact ⟨svcs, List.mem_append_left _ hmem, hx⟩
      · subst h1
        subst h2
        exact ⟨[x], List.mem_append_right _ (List.mem_singleton.mpr rfl),
          List.mem_singleton.mpr rfl⟩

theorem memSv_storyStep (decomp : Decomp) (st : List (String × List String))
    (e : BLink) (story x : String) :
    MemSv (storyStep decomp st e) story x ↔
      MemSv st story x ∨ BTouch decomp e story x := by
  unfold storyStep BTouch
  rcases hs : e.source with _ | story0
  · simp [hs]
  dsimp only
  by_cases hm : hasMarker story0 = true
  · rw [if_pos hm]
    rcases ht : getOpt decomp e.target with _ | svc
    · simp [ht]
    dsimp only
    by_cases hsv : svc ≠ ""
    · rw [if_pos hsv, memSv_addStory]
      constructor
      · rintro (h | ⟨h1, h2⟩)
        · exact Or.inl h
        · subst h1
          subst h2
          exact Or.inr ⟨rfl, hm, rfl, hsv⟩
      · rintro (h | ⟨h1, -, h3, -⟩)
        · exact Or.inl h
        · injection h1 with h1
          injection h3 with h3
          exact Or.inr ⟨h1.symm, h3.symm⟩
    · rw [if_neg hsv]
      constructor
      · exact Or.inl
      · rintro (h | ⟨-, -, h3, h4⟩)
        · exact h
        · injection h3 with h3
          exact absurd (h3 ▸ hsv) (fun hc => hc h4)
  · rw [if_neg hm]
    constructor
    · exact Or.inl
    · rintro (h | ⟨h1, h2, -, -⟩)
      · exact h
      · injection h1 with h1
        rw [h1] at hm
        exact absurd h2 hm

theorem memSv_foldl (decomp : Decomp) (busLinks : List BLink) :
    ∀ (st0 : List (String × List String)) (story x : String),
    MemSv (busLinks.foldl (storyStep decomp) st0) story x ↔
      MemSv st0 story x ∨ ∃ b ∈ busLinks, BTouch decomp b story x := by
  induction busLinks with
  | nil => intro st0 story x; simp
  | cons e rest ih =>
    intro st0 story x
    rw [List.foldl_cons, ih (storyStep decomp st0 e) story x,
      memSv_storyStep decomp st0 e story x]
    constructor
    · rintro ((h | h) | ⟨b, hb, h⟩)
      · exact Or.inl h
      · exact Or.inr ⟨e, List.mem_cons_self _ _, h⟩
      · exact Or.inr ⟨b, List.mem_cons_of_mem _ hb, h⟩
    · rintro (h | ⟨b, hb, h⟩)
      · exact Or.inl (Or.inl h)
      · rcases List.mem_cons.mp hb with rfl | hb2
        · exact Or.inl (Or.inr h)
        · exact Or.inr ⟨b, hb2, h⟩

/-- Under well-formedness, a service is recorded for a story exactly when some
business edge with the story marker maps to a node of that service. -/
theorem memSv_story2svcs (decomp : Decomp) (links : List Link)
    (busLinks : List BLink) (hwf : WellFormedSL decomp links) (story x : String) :
    MemSv (story2svcs decomp busLinks) story x ↔
      ∃ b ∈ busLinks, b.source = some story ∧ hasMarker story = true ∧
        getOpt decomp b.target = some x := by
  unfold story2svcs
  rw [memSv_foldl decomp busLinks [] story x]
  have h0 : ¬ MemSv [] story x := by
    rintro ⟨svcs, hmem, -⟩
    exact List.not_mem_nil _ hmem
  constructor
  · rintro (h | ⟨b, hb, h1, h2, h3, -⟩)
    · exact absurd h h0
    · exact ⟨b, hb, h1, h2, h3⟩
  · rintro ⟨b, hb, h1, h2, h3⟩
    exact Or.inr ⟨b, hb, h1, h2, h3, hwf.2.1 x (getOpt_mem_partKeys h3)⟩

theorem addStory_values_nonempty (st : List (String × List String))
    (story svc : String) (hinv : ∀ pr ∈ st, pr.2 ≠ []) :
    ∀ pr ∈ addStory st story svc, pr.2 ≠ [] := by
  unfold addStory
  by_cases hany : st.any (fun pr => pr.1 == story) = true
  · rw [if_pos hany]
    intro pr hpr
    rw [List.mem_map] at hpr
    obtain ⟨pr0, hpr0, hf⟩ := hpr
    by_cases hk : pr0.1 = story
    · rw [if_pos hk] at hf
      rw [← hf]
      dsimp only
      by_cases hb : svc ∈ pr0.2
      · rw [if_pos hb]
        exact hinv pr0 hpr0
      · rw [if_neg hb]
        simp
    · rw [if_neg hk] at hf
      rw [← hf]
      exact hinv pr0 hpr0
  · rw [if_neg hany]
    intro pr hpr
    rw [List.mem_append] at hpr
    rcases hpr with h | h
    · exact hinv pr h
    · rw [List.mem_singleton] at h
      rw [h]
      simp

theorem story2svcs_values_nonempty (decomp : Decomp) (busLinks : List BLink) :
    ∀ pr ∈ story2svcs decomp busLinks, pr.2 ≠ [] := by
  unfold story2svcs
  suffices H : ∀ (st0 : List (String × List String)),
      (∀ pr ∈ st0, pr.2 ≠ []) →
      ∀ pr ∈ busLinks.foldl (storyStep decomp) st0, pr.2 ≠ [] from
    H [] (fun pr hpr => absurd hpr (List.not_mem_nil pr))
  induction busLinks with
  | nil => intro st0 hinv; exact hinv
  | cons e rest ih =>
    intro st0 hinv
    rw [List.foldl_cons]
    apply ih
    unfold storyStep
    rcases e.source with _ | story0
    · exact hinv
    dsimp only
    by_cases hm : hasMarker story0 = true
    · rw [if_pos hm]
      rcases getOpt decomp e.target with _ | svc
      · exact hinv
      dsimp only
      by_cases hsv : svc ≠ ""
      · rw [if_pos hsv]
        exact addStory_values_nonempty st0 story0 svc hinv
      · rw [if_neg hsv]
        exact hinv
    · rw [if_neg hm]
      exact hinv

/-- Scenario 5 decomposition: chain `A → B → C`, one node per partition. -/
def dccmdScDecomp : Decomp := [("A", ["a"]), ("B", ["b"]), ("C", ["c"])]

/-- Scenario 5 structural links `a → b → c`. -/
def dccmdScLinks : List Link :=
  [⟨some "a", some "b", .absent⟩, ⟨some "b", some "c", .absent⟩]

/-- Scenario 5 business links: one story touching only `A`, one only `C`. -/
def dccmdScBus : List BLink :=
  [⟨some "USE CASE 1", some "a"⟩, ⟨some "USE CASE 2", some "c"⟩]

/-- Claim C1: for every well-formed document, the service-level adjacency is
exactly the cross-partition dependency relation; the recorded story → service
map contains exactly the services touched by marker-labelled use-case edges;
each recorded story's depth is the greatest length of a simple directed path
(no partition revisited) starting from one of the partitions the story
touches; the metric is `1 − MAD/(MAD + 2)` over the per-story depths; and on
the chain `A→B→C` with one story touching only `A` and one touching only `C`
the result is `1 − 1/3`. -/
theorem dccmd_matches_spec :
    (∀ (decomp : Decomp) (links : List Link) (busLinks : List BLink),
      WellFormedSL decomp links →
      ((∀ p q, q ∈ adjGet (serviceAdjL decomp links) p ↔ CrossDep decomp links p q) ∧
       (∀ story svc, MemSv (story2svcs decomp busLinks) story svc ↔
          ∃ b ∈ busLinks, b.source = some story ∧ hasMarker story = true ∧
            getOpt decomp b.target = some svc) ∧
       (∀ pr ∈ story2svcs decomp busLinks,
          IsGreatest {n | ∃ s ∈ pr.2, ∃ rest,
              IsChainFrom (serviceAdjL decomp links) s rest ∧ (s :: rest).Nodup ∧
              rest.length = n}
            (storyDepth (serviceAdjL decomp links) pr.2)) ∧
       (∀ ds, (depthsForDoc decomp links busLinks).1 = some ds → ds ≠ [] →
          dccmdValue decomp links busLinks =
            some (1 - madOf (ds.map (fun n => (n : ℚ))) /
                  (madOf (ds.map (fun n => (n : ℚ))) + 2))))) ∧
    dccmdValue dccmdScDecomp dccmdScLinks dccmdScBus = some (1 - 1 / 3) := by
  constructor
  · intro decomp links busLinks hwf
    refine ⟨mem_adjGet_serviceAdjL decomp links hwf,
      memSv_story2svcs decomp links busLinks hwf, ?_, ?_⟩
    · intro pr hpr
      have hne : pr.2 ≠ [] := story2svcs_values_nonempty decomp busLinks pr hpr
      constructor
      · unfold storyDepth
        rcases foldl_max_mem (pr.2.map (longestPath (serviceAdjL decomp links))) 0
          with h0 | hmem
        · rw [h0]
          obtain ⟨s, hs⟩ := List.exists_mem_of_ne_nil _ hne
          exact ⟨s, hs, [], trivial, by simp, rfl⟩
        · rw [List.mem_map] at hmem
          obtain ⟨s, hs, hval⟩ := hmem
          obtain ⟨rest, hch, hnd, havoid, hlen⟩ :=
            dfs_mem (serviceAdjL decomp links) [s] s
          refine ⟨s, hs, rest, hch, ?_, ?_⟩
          · rw [List.nodup_cons]
            exact ⟨fun hx => (havoid s hx) (List.mem_cons_self _ _), hnd⟩
          · exact hlen.trans hval
      · rintro n ⟨s, hs, rest, hch, hnd, rfl⟩
        rw [List.nodup_cons] at hnd
        have h1 : rest.length ≤ longestPath (serviceAdjL decomp links) s := by
          unfold longestPath
          apply dfs_ub _ rest s [s] hch hnd.2
          intro x hx
          rw [List.mem_singleton]
          rintro rfl
          exact hnd.1 hx
        have h2 : longestPath (serviceAdjL decomp links) s ≤
            storyDepth (serviceAdjL decomp links) pr.2 := by
          unfold storyDepth
          exact ((foldl_max_le_iff _ _ _).mp le_rfl).2 _ (List.mem_map_of_mem _ hs)
        omega
    · intro ds hds hne
      unfold dccmdValue
      rw [hds]
      dsimp only
      rw [if_neg hne]
      unfold dccmdScore
      rfl
  · have hA : adjGet (serviceAdjL dccmdScDecomp dccmdScLinks) "A" = ["B"] := by decide
    have hB : adjGet (serviceAdjL dccmdScDecomp dccmdScLinks) "B" = ["C"] := by decide
    have hC : adjGet (serviceAdjL dccmdScDecomp dccmdScLinks) "C" = [] := by decide
    have hd1 : dfs (serviceAdjL dccmdScDecomp dccmdScLinks) "C" ["C", "B", "A"] = 0 := by
      rw [dfs_unfold, hC]
      rfl
    have hd2 : dfs (serviceAdjL dccmdScDecomp dccmdScLinks) "B" ["B", "A"] = 1 := by
      rw [dfs_unfold, hB, List.map_cons, List.map_nil, if_neg (by decide), hd1]
      rfl
    have hlpA : longestPath (serviceAdjL dccmdScDecomp dccmdScLinks) "A" = 2 := by
      unfold longestPath
      rw [dfs_unfold, hA, List.map_cons, List.map_nil, if_neg (by decide), hd2]
      rfl
    have hlpC : longestPath (serviceAdjL dccmdScDecomp dccmdScLinks) "C" = 0 := by
      unfold longestPath
      rw [dfs_unfold, hC]
      rfl
    have hst : story2svcs dccmdScDecomp dccmdScBus =
        [("USE CASE 1", ["A"]), ("USE CASE 2", ["C"])] := by decide
    have hdepths : (depthsForDoc dccmdScDecomp dccmdScLinks dccmdScBus).1 = some [2, 0] := by
      unfold depthsForDoc
      rw [hst, if_neg (by decide)]
      dsimp only
      unfold storyDepth
      simp only [List.map_cons, List.map_nil]
      rw [hlpA, hlpC]
      rfl
    have hmad : madOf (([2, 0] : List ℕ).map (fun n => (n : ℚ))) = 1 := by
      norm_num [madOf, pymedian, List.insertionSort, List.orderedInsert]
    unfold dccmdValue
    rw [hdepths]
    dsimp only
    rw [if_neg (by decide), hmad]
    unfold dccmdScore
    norm_num

/-- Witness for C1: the scenario document is well-formed, and the theorem
applied to it gives the adjacency characterization there. -/
theorem dccmd_matches_spec_witness :
    WellFormedSL dccmdScDecomp dccmdScLinks ∧
    (∀ p q, q ∈ adjGet (serviceAdjL dccmdScDecomp dccmdScLinks) p ↔
      CrossDep dccmdScDecomp dccmdScLinks p q) :=
  ⟨by decide,
    (dccmd_matches_spec.1 dccmdScDecomp dccmdScLinks dccmdScBus (by decide)).1⟩

/-! ## Shared edge interpretation (claim C6) -/

/-- Claim C6: for every well-formed document, the CiD, CMod and SCF loops
derive the same cross-partition interpretation from every edge descriptor:
each either contributes no cross-partition pair (unknown endpoint, or both
endpoints in the same partition — which CMod counts as internal and the other
two skip) or contributes the same ordered partition pair; and that pair is
exactly the pair of partitions of the two known, distinct endpoints. -/
theorem edge_classification_agrees (decomp : Decomp) (links : List Link)
    (hwf : WellFormedSL decomp links) (e : Link) :
    classifyCmod decomp e = classifyCid decomp e ∧
    classifyScf decomp e = classifyCid decomp e ∧
    (∀ p q, classifyCid decomp e = some (p, q) ↔
      getOpt decomp e.source = some p ∧ getOpt decomp e.target = some q ∧ p ≠ q) := by
  refine ⟨?_, ?_, fun p q => classifyCid_eq_some decomp e p q⟩
  · unfold classifyCmod cmodView classifyCid getOpt
    rcases e.source with _ | s
    · rfl
    rcases e.target with _ | t
    · dsimp only [Option.bind]
      rcases node2part decomp s with _ | a <;> rfl
    dsimp only [Option.bind]
    rcases node2part decomp s with _ | a
    · rfl
    rcases node2part decomp t with _ | b
    · rfl
    dsimp only
    by_cases hab : a = b
    · rw [if_pos hab, if_pos hab]
    · rw [if_neg hab, if_neg hab]
  · unfold classifyScf classifyCid
    rcases hs : getOpt decomp e.source with _ | a
    · rfl
    rcases ht : getOpt decomp e.target with _ | b
    · rfl
    dsimp only
    by_cases hab : a = b
    · rw [if_pos hab, if_neg]
      rintro ⟨-, -, hne⟩
      exact hne hab
    · rw [if_neg hab, if_pos]
      exact ⟨hwf.2.1 a (getOpt_mem_partKeys hs),
        hwf.2.1 b (getOpt_mem_partKeys ht), hab⟩

/-- Witness for C6 at the zero-weight two-partition document and its edge. -/
theorem edge_classification_agrees_witness :
    WellFormedSL cmodZeroDecomp cmodZeroLinks ∧
    classifyCmod cmodZeroDecomp ⟨some "a", some "b", .num 0⟩ =
      classifyCid cmodZeroDecomp ⟨some "a", some "b", .num 0⟩ :=
  ⟨by decide,
    (edge_classification_agrees cmodZeroDecomp cmodZeroLinks (by decide)
      ⟨some "a", some "b", .num 0⟩).1⟩

/-! ## Raw document layer: error behaviour (claims C7, C8) -/

/-- A raw node descriptor: `none` models a descriptor without an `"id"` key
(reading `n["id"]` raises `KeyError`). -/
abbrev RawNode := Option String

/-- The raw structural layer: whether the `"decomposition"` key is present
(dccmd.py reads `struct["decomposition"]`, raising `KeyError` when absent; the
other scripts use `.get` with default `{}`), its content, and the links
(`.get("links", [])` everywhere, so an absent key is an empty list). -/
structure RawStruct where
  hasDecomp : Bool
  decomp : List (String × List RawNode)
  links : List Link

/-- The raw business layer (`bus.get("links", [])`). -/
structure RawBus where
  links : List BLink

/-- A raw input document as each script sees it: unreadable (read or JSON
decode failure), valid JSON whose top level is not an object (so `data[KEY]`
raises `TypeError`), or an object with optional structural and business
layers. -/
inductive RawDoc where
  | unreadable
  | nonObject
  | object (structural : Option RawStruct) (business : Option RawBus)

/-- `layer.get("decomposition", {})`. -/
def getDecomp (s : RawStruct) : List (String × List RawNode) :=
  if s.hasDecomp then s.decomp else []

/-- Some node descriptor lacks an `"id"` key, so building the node →
partition dict raises `KeyError`. -/
def missingId (d : List (String × List RawNode)) : Bool :=
  d.any (fun pr => pr.2.any (fun o => o.isNone))

/-- The typed decomposition of a raw one (meaningful when no id is missing). -/
def stripIds (d : List (String × List RawNode)) : Decomp :=
  d.map (fun pr => (pr.1, pr.2.filterMap id))

/-- The raw decomposition with placeholder ids; smad.py only reads
`len(nodes)`, which this preserves even for id-less descriptors. -/
def rawSizesDecomp (d : List (String × List RawNode)) : Decomp :=
  d.map (fun pr => (pr.1, pr.2.map (fun o => o.getD "")))

/-- `float(e.get("weight", 1.0))` raised? -/
def pyFloatFails (w : WField) : Bool :=
  match pyFloat w with
  | .error _ => true
  | .ok _ => false

/-- Some link whose endpoints both resolve reaches `float(...)` with an
unconvertible weight (the conversion runs only after the endpoint checks). -/
def badWeightHit (decomp : Decomp) (links : List Link) : Bool :=
  links.any (fun e =>
    match e.source, e.target with
    | some s, some t =>
      (node2part decomp s).isSome && (node2part decomp t).isSome &&
        pyFloatFails e.weight
    | _, _ => false)

/-- `cid_for_file` on a raw document.  Its `except (json.JSONDecodeError,
KeyError)` wraps only the read and the layer lookup, so a non-object top
level raises `TypeError`; with at most one partition the function returns
before building the node map, so a missing id does not raise there. -/
def cidRaw : RawDoc → Except PyError (Option CidRes)
  | .unreadable => .ok none
  | .nonObject => .error .typeError
  | .object none _ => .ok none
  | .object (some s) _ =>
    if (getDecomp s).length ≤ 1 then
      .ok (some ⟨(getDecomp s).length, 0,
        (getDecomp s).length * ((getDecomp s).length - 1) / 2, 1⟩)
    else if missingId (getDecomp s) then .error .keyError
    else .ok (some (cidPure (stripIds (getDecomp s)) s.links))

/-- `cmod_for_file` on a raw document (its `except` clause also catches
`TypeError`, so a non-object top level yields `None`). -/
def cmodRaw : RawDoc → Except PyError (Option ℚ)
  | .unreadable => .ok none
  | .nonObject => .ok none
  | .object none _ => .ok none
  | .object (some s) _ =>
    if missingId (getDecomp s) then .error .keyError
    else if badWeightHit (stripIds (getDecomp s)) s.links then .error .valueError
    else .ok (cmodPure (stripIds (getDecomp s)) s.links)

/-- `scf_for_file` on a raw document (also catches `TypeError`). -/
noncomputable def scfRaw : RawDoc → Except PyError (Option ℝ)
  | .unreadable => .ok none
  | .nonObject => .ok none
  | .object none _ => .ok none
  | .object (some s) _ =>
    if missingId (getDecomp s) then .error .keyError
    else .ok (some (scfPure (stripIds (getDecomp s)) s.links))

/-- `analyze_file` of smad.py on a raw document (also catches `TypeError`;
never reads node ids, so id-less descriptors still count toward sizes). -/
def smadRaw : RawDoc → Except PyError (Option SmadRes)
  | .unreadable => .ok none
  | .nonObject => .ok none
  | .object none _ => .ok none
  | .object (some s) _ => .ok (analyzeSmad (rawSizesDecomp (getDecomp s)))

/-- `depths_for_file` of dccmd.py on a raw document: its `try` covers the
read and both layer lookups (`data[L1]`, `data[L3]`), but
`struct["decomposition"]` and the node-map comprehension run outside it. -/
def dccmdRaw : RawDoc → Except PyError (Option (List ℕ) × Option ℕ)
  | .unreadable => .ok (none, none)
  | .nonObject => .error .typeError
  | .object none _ => .ok (none, none)
  | .object (some _) none => .ok (none, none)
  | .object (some s) (some b) =>
    if !s.hasDecomp then .error .keyError
    else if missingId s.decomp then .error .keyError
    else
      .ok ((depthsForDoc (stripIds s.decomp) s.links b.links).1,
           some (depthsForDoc (stripIds s.decomp) s.links b.links).2)

/-- Counterexample to claim C7 as stated: a document whose structural layer
lacks the `"decomposition"` key makes the DCCMD computation raise `KeyError`
(the lookup runs outside its `try`), and a readable JSON document whose top
level is not an object makes the CiD computation raise `TypeError` (not in
its `except` clause) — rather than yielding "not available". -/
theorem malformed_documents_can_raise :
    dccmdRaw (.object (some ⟨false, [], []⟩) (some ⟨[]⟩)) = .error .keyError ∧
    cidRaw .nonObject = .error .typeError :=
  ⟨rfl, rfl⟩

/-- Amended claim C7: failures at the guarded level — an unreadable or
JSON-undecodable file, or a missing required top-level layer — yield "not
available" for every metric without raising; a non-object top level yields
"not available" for the three scripts whose `except` clause includes
`TypeError` (CMod, SCF, SMAD); deeper malformations can raise (see the
counterexample). -/
theorem guarded_failures_yield_na :
    (cidRaw .unreadable = .ok none ∧ cmodRaw .unreadable = .ok none ∧
     scfRaw .unreadable = .ok none ∧ smadRaw .unreadable = .ok none ∧
     dccmdRaw .unreadable = .ok (none, none)) ∧
    (∀ b, cidRaw (.object none b) = .ok none ∧ cmodRaw (.object none b) = .ok none ∧
      scfRaw (.object none b) = .ok none ∧ smadRaw (.object none b) = .ok none ∧
      dccmdRaw (.object none b) = .ok (none, none)) ∧
    (∀ s, dccmdRaw (.object (some s) none) = .ok (none, none)) ∧
    (cmodRaw .nonObject = .ok none ∧ scfRaw .nonObject = .ok none ∧
     smadRaw .nonObject = .ok none) :=
  ⟨⟨rfl, rfl, rfl, rfl, rfl⟩, fun _ => ⟨rfl, rfl, rfl, rfl, rfl⟩,
   fun _ => rfl, rfl, rfl, rfl⟩

/-- A document with one cross edge whose weight field is unconvertible. -/
def badWDoc : RawDoc :=
  .object (some ⟨true, [("A", [some "a"]), ("B", [some "b"])],
    [⟨some "a", some "b", .bad⟩]⟩) none

/-- Counterexample to claim C8 as stated: an unparseable weight does not
default to `1.0` — `float(...)` raises and the CMod computation fails on the
document instead of processing it. -/
theorem unparseable_weight_raises :
    pyFloat .bad = .error .valueError ∧ cmodRaw badWDoc = .error .valueError :=
  ⟨rfl, rfl⟩

/-- A document with an internal edge and a cross edge, both with the weight
key absent. -/
def absWDoc : RawDoc :=
  .object (some ⟨true, [("A", [some "a1", some "a2"]), ("B", [some "b"])],
    [⟨some "a1", some "a2", .absent⟩, ⟨some "a1", some "b", .absent⟩]⟩) none

/-- The typed structural layer of the absent-weight document. -/
def absWDecomp : Decomp := [("A", ["a1", "a2"]), ("B", ["b"])]

/-- The typed links of the absent-weight document. -/
def absWLinks : List Link :=
  [⟨some "a1", some "a2", .absent⟩, ⟨some "a1", some "b", .absent⟩]

/-- Amended claim C8: an absent weight key defaults to `1.0` and numeric
weights convert to their value, so the document is processed (on the
absent-weight document the cross edge counts with weight `1`, giving
`CMod = ((2·1)/(2·1+1) + 0)/2 = 1/3`); an unparseable weight instead raises
and fails the document. -/
theorem weight_default_amended :
    pyFloat .absent = .ok 1 ∧ (∀ q, pyFloat (.num q) = .ok q) ∧
    pyFloat .bad = .error .valueError ∧
    cmodRaw absWDoc = .ok (some (1 / 3)) := by
  refine ⟨rfl, fun q => rfl, rfl, ?_⟩
  have h0 : cmodRaw absWDoc = .ok (cmodPure absWDecomp absWLinks) := rfl
  rw [h0]
  have hfA1 : absWLinks.filter
      (fun e => (classifyCmod absWDecomp e).map Prod.fst == some "A") =
      [⟨some "a1", some "b", .absent⟩] := by decide
  have hfA2 : absWLinks.filter
      (fun e => (classifyCmod absWDecomp e).map Prod.snd == some "A") = [] := by decide
  have hfB1 : absWLinks.filter
      (fun e => (classifyCmod absWDecomp e).map Prod.fst == some "B") = [] := by decide
  have hfB2 : absWLinks.filter
      (fun e => (classifyCmod absWDecomp e).map Prod.snd == some "B") =
      [⟨some "a1", some "b", .absent⟩] := by decide
  have hextA : extW absWDecomp absWLinks "A" = 1 := by
    simp [extW, outgoingW, incomingW, hfA1, hfA2, wval, pyFloat]
  have hextB : extW absWDecomp absWLinks "B" = 1 := by
    simp [extW, outgoingW, incomingW, hfB1, hfB2, wval, pyFloat]
  have hintA : internalCnt absWDecomp absWLinks "A" = 1 := by decide
  have hintB : internalCnt absWDecomp absWLinks "B" = 0 := by decide
  have hcfA : cfOf absWDecomp absWLinks "A" = some (2 / 3) := by
    rw [cfOf, hextA, hintA]
    norm_num
  have hcfB : cfOf absWDecomp absWLinks "B" = some 0 := by
    rw [cfOf, hextB, hintB]
    norm_num
  have hkeys : partKeys absWDecomp = ["A", "B"] := by decide
  have hfm : (partKeys absWDecomp).filterMap (cfOf absWDecomp absWLinks) =
      [2 / 3, 0] := by
    rw [hkeys]
    simp [hcfA, hcfB]
  rw [cmodPure, hfm]
  rw [if_neg (by simp)]
  norm_num

/-! ## Monotonicity of the MAD scores (claim C9) -/

/-- Claim C9: both `SMAD = 1 − m/(m+7)` and `DCCMD = 1 − m/(m+2)` are
strictly decreasing in the MAD argument over the MAD values (non-negative
rationals), and both equal exactly `1` at `m = 0`. -/
theorem mad_scores_monotone :
    (∀ m1 m2 : ℚ, 0 ≤ m1 → m1 < m2 →
      smadScore m2 < smadScore m1 ∧ dccmdScore m2 < dccmdScore m1) ∧
    smadScore 0 = 1 ∧ dccmdScore 0 = 1 := by
  refine ⟨?_, by norm_num [smadScore], by norm_num [dccmdScore]⟩
  intro m1 m2 h0 hlt
  constructor
  · unfold smadScore
    have h7a : (0 : ℚ) < m1 + 7 := by linarith
    have h7b : (0 : ℚ) < m2 + 7 := by linarith
    have hd : m1 / (m1 + 7) < m2 / (m2 + 7) := by
      rw [div_lt_div_iff₀ h7a h7b]
      nlinarith
    linarith
  · unfold dccmdScore
    have h2a : (0 : ℚ) < m1 + 2 := by linarith
    have h2b : (0 : ℚ) < m2 + 2 := by linarith
    have hd : m1 / (m1 + 2) < m2 / (m2 + 2) := by
      rw [div_lt_div_iff₀ h2a h2b]
      nlinarith
    linarith

/-- Witness for C9 at `m1 = 0`, `m2 = 1`. -/
theorem mad_scores_monotone_witness :
    (0 : ℚ) ≤ 0 ∧ (0 : ℚ) < 1 ∧
    smadScore 1 < smadScore 0 ∧ dccmdScore 1 < dccmdScore 0 :=
  ⟨le_refl 0, by norm_num,
   (mad_scores_monotone.1 0 1 (le_refl 0) (by norm_num)).1,
   (mad_scores_monotone.1 0 1 (le_refl 0) (by norm_num)).2⟩

end MQSM
